import Mathlib

/-!
Verification of the core algorithms of the `lammps_tools` repository
(`average_lammps_profile.py`, `read_lammps_log.py`, `read_lammpstrj.py`,
`skip_lammpstrj.py`, `read_lammps_data.py`).

The Python code is shallowly embedded: floating-point numbers are modelled
by exact rationals, Python `int` by `Int`, files by lists of line strings,
generators by functions returning the list of yielded records together with
an optional uncaught exception, and Python dictionaries by association lists.
-/

namespace LammpsTools

/-! ## Streaming moment aggregator (`average_lammps_profile.update_variance`)

`update_variance(xdata, length, mean, var_m2)` in the source operates on
numpy arrays elementwise; the scalar function below is the formula the code
applies at each array component.  The variance result is `float('inf')`
when fewer than two observations have been seen; `WithTop ℚ` models the
rational line extended with `+inf` (`⊤`). -/

/-- Scalar (per-component) embedding of `update_variance` from
`average_lammps_profile.py` lines 43-53: Welford's online update, returning
the new `(length, mean, var_m2, variance)`. -/
def update_variance (xdata length mean var_m2 : ℚ) : ℚ × ℚ × ℚ × WithTop ℚ :=
  let length := length + 1
  let delta := xdata - mean
  let mean := mean + delta / length
  let var_m2 := var_m2 + delta * (xdata - mean)
  let variance : WithTop ℚ :=
    if length < 2 then ⊤ else ((var_m2 / (length - 1) : ℚ) : WithTop ℚ)
  (length, mean, var_m2, variance)

/-- One aggregation step as performed by `average_profiles`: feed a new
observation into the running `(count, mean, M2, variance)` state. -/
def stepUV (s : ℚ × ℚ × ℚ × WithTop ℚ) (x : ℚ) : ℚ × ℚ × ℚ × WithTop ℚ :=
  update_variance x s.1 s.2.1 s.2.2.1

/-- Feeding a whole list of scalar observations through `update_variance`,
starting from the initial state of `average_profiles` (count `0.0`, zero
mean, zero M2, variance `inf`). -/
def runUV (xs : List ℚ) : ℚ × ℚ × ℚ × WithTop ℚ :=
  xs.foldl stepUV (0, 0, 0, ⊤)

/-- Arithmetic mean of a list of rationals (`sum / length`; `0` for `[]`). -/
def meanL (p : List ℚ) : ℚ := p.sum / p.length

/-- Two-pass sum of squared deviations from the mean. -/
def sqDev (p : List ℚ) : ℚ := (p.map (fun x => (x - meanL p) ^ 2)).sum

/-- Two-pass variance: `sqDev / (N - 1)`, positive infinity for `N < 2`. -/
def varL (p : List ℚ) : WithTop ℚ :=
  if p.length < 2 then ⊤ else ((sqDev p / ((p.length : ℚ) - 1) : ℚ) : WithTop ℚ)

/-- The exact aggregator state reached after the observations `p`. -/
def stateOf (p : List ℚ) : ℚ × ℚ × ℚ × WithTop ℚ :=
  ((p.length : ℚ), meanL p, sqDev p, varL p)

lemma stateOf_nil : stateOf [] = (0, 0, 0, ⊤) := by
  simp [stateOf, meanL, sqDev, varL]

lemma sq_sum_expand (q : List ℚ) (c : ℚ) :
    (q.map (fun x => (x - c) ^ 2)).sum =
      (q.map (fun x => x ^ 2)).sum - 2 * c * q.sum + q.length * c ^ 2 := by
  induction q with
  | nil => simp
  | cons a t ih =>
    simp only [List.map_cons, List.sum_cons, List.length_cons, ih]
    push_cast
    ring

lemma meanL_append (p : List ℚ) (y : ℚ) :
    meanL (p ++ [y]) = (p.sum + y) / ((p.length : ℚ) + 1) := by
  simp [meanL]

lemma mean_step (p : List ℚ) (y : ℚ) :
    meanL p + (y - meanL p) / ((p.length : ℚ) + 1) = meanL (p ++ [y]) := by
  rcases eq_or_ne p [] with h | h
  · subst h; simp [meanL]
  · have hn : (p.length : ℚ) ≠ 0 := by
      exact_mod_cast (Nat.cast_ne_zero (R := ℚ)).mpr (by simpa using h)
    have hn1 : (p.length : ℚ) + 1 ≠ 0 := by positivity
    rw [meanL_append]
    unfold meanL
    field_simp
    ring

lemma m2_step (p : List ℚ) (y : ℚ) :
    sqDev p + (y - meanL p) * (y - (meanL p + (y - meanL p) / ((p.length : ℚ) + 1))) =
      sqDev (p ++ [y]) := by
  rcases eq_or_ne p [] with h | h
  · subst h; simp [sqDev, meanL]
  · have hn : (p.length : ℚ) ≠ 0 := by
      exact_mod_cast (Nat.cast_ne_zero (R := ℚ)).mpr (by simpa using h)
    have hn1 : (p.length : ℚ) + 1 ≠ 0 := by positivity
    unfold sqDev
    rw [sq_sum_expand p (meanL p), sq_sum_expand (p ++ [y]) (meanL (p ++ [y])),
      meanL_append]
    simp only [List.map_append, List.sum_append, List.map_cons, List.map_nil,
      List.sum_cons, List.sum_nil, List.length_append, List.length_cons,
      List.length_nil]
    unfold meanL
    push_cast
    field_simp
    ring

lemma step_stateOf (p : List ℚ) (y : ℚ) :
    stepUV (stateOf p) y = stateOf (p ++ [y]) := by
  have hmean := mean_step p y
  have hm2 := m2_step p y
  have hlen : (p.length : ℚ) + 1 = (((p ++ [y]).length : ℕ) : ℚ) := by
    simp
  have hcond : ((p.length : ℚ) + 1 < 2) ↔ ((p ++ [y]).length < 2) := by
    simp only [List.length_append, List.length_singleton]
    constructor
    · intro hlt
      have h1 : (p.length : ℚ) < 1 := by linarith
      have h2 : p.length < 1 := by exact_mod_cast h1
      omega
    · intro hlt
      have h2 : p.length < 1 := by omega
      have h1 : (p.length : ℚ) < 1 := by exact_mod_cast h2
      linarith
  simp only [stepUV, update_variance, stateOf, varL]
  simp only [Prod.mk.injEq]
  refine ⟨hlen, hmean, hm2, ?_⟩
  by_cases hc : (p.length : ℚ) + 1 < 2
  · rw [if_pos hc, if_pos (hcond.mp hc)]
  · rw [if_neg hc, if_neg (fun hl => hc (hcond.mpr hl))]
    rw [hm2, hlen]

lemma foldl_stepUV_stateOf (xs : List ℚ) :
    ∀ p : List ℚ, xs.foldl stepUV (stateOf p) = stateOf (p ++ xs) := by
  induction xs with
  | nil => intro p; simp
  | cons x t ih =>
    intro p
    rw [List.foldl_cons, step_stateOf, ih (p ++ [x])]
    simp

lemma runUV_eq_stateOf (xs : List ℚ) : runUV xs = stateOf xs := by
  have h0 : (0, 0, 0, (⊤ : WithTop ℚ)) = stateOf [] := stateOf_nil.symm
  rw [runUV, h0, foldl_stepUV_stateOf xs []]
  simp

/-! ### Vector form of the aggregator

In `average_profiles` the observations handed to `update_variance` are numpy
arrays (one entry per spatial bin) and all arithmetic is elementwise; an
array of a fixed bin count `m` is modelled as `Fin m → ℚ`.  When `count < 2`
the Python variance is the scalar `float('inf')`, otherwise an array. -/

/-- Variance result of the vector form: scalar `inf` or an array. -/
inductive VarVec (m : ℕ) where
  | inf : VarVec m
  | vec : (Fin m → ℚ) → VarVec m

/-- Vector embedding of `update_variance`: the same source formula with the
numpy elementwise semantics made explicit. -/
def update_variance_vec {m : ℕ} (xdata : Fin m → ℚ) (length : ℚ)
    (mean var_m2 : Fin m → ℚ) : ℚ × (Fin m → ℚ) × (Fin m → ℚ) × VarVec m :=
  let length := length + 1
  let delta := fun i => xdata i - mean i
  let mean := fun i => mean i + delta i / length
  let var_m2 := fun i => var_m2 i + delta i * (xdata i - mean i)
  let variance : VarVec m :=
    if length < 2 then .inf else .vec (fun i => var_m2 i / (length - 1))
  (length, mean, var_m2, variance)

/-- The `(count, mean, M2)` part of one scalar update (the variance output
is recomputed at every call and does not feed back into the state). -/
def step3 (s : ℚ × ℚ × ℚ) (x : ℚ) : ℚ × ℚ × ℚ :=
  ((update_variance x s.1 s.2.1 s.2.2).1,
   (update_variance x s.1 s.2.1 s.2.2).2.1,
   (update_variance x s.1 s.2.1 s.2.2).2.2.1)

/-- The `(count, mean, M2)` part of one vector update. -/
def stepVec {m : ℕ} (s : ℚ × (Fin m → ℚ) × (Fin m → ℚ)) (x : Fin m → ℚ) :
    ℚ × (Fin m → ℚ) × (Fin m → ℚ) :=
  ((update_variance_vec x s.1 s.2.1 s.2.2).1,
   (update_variance_vec x s.1 s.2.1 s.2.2).2.1,
   (update_variance_vec x s.1 s.2.1 s.2.2).2.2.1)

/-- Feeding a list of observation vectors through `update_variance`, from the
initial state of `average_profiles` (count `0.0`, zero mean, zero M2). -/
def runVec {m : ℕ} (xss : List (Fin m → ℚ)) :
    ℚ × (Fin m → ℚ) × (Fin m → ℚ) :=
  xss.foldl stepVec (0, fun _ => 0, fun _ => 0)

lemma foldl_stepUV_proj (xs : List ℚ) :
    ∀ (a b c : ℚ) (v : WithTop ℚ),
      ((xs.foldl stepUV (a, b, c, v)).1,
       (xs.foldl stepUV (a, b, c, v)).2.1,
       (xs.foldl stepUV (a, b, c, v)).2.2.1) = xs.foldl step3 (a, b, c) := by
  induction xs with
  | nil => intro a b c v; simp
  | cons x t ih =>
    intro a b c v
    rw [List.foldl_cons, List.foldl_cons]
    exact ih _ _ _ _

lemma foldl_step3_stateOf (xs : List ℚ) (p : List ℚ) :
    xs.foldl step3 ((p.length : ℚ), meanL p, sqDev p) =
      (((p ++ xs).length : ℚ), meanL (p ++ xs), sqDev (p ++ xs)) := by
  have h := foldl_stepUV_proj xs (p.length : ℚ) (meanL p) (sqDev p) (varL p)
  have h2 : xs.foldl stepUV (stateOf p) = stateOf (p ++ xs) :=
    foldl_stepUV_stateOf xs p
  rw [stateOf] at h2
  rw [h2] at h
  rw [← h]
  rfl

lemma foldl_stepVec_component {m : ℕ} (xss : List (Fin m → ℚ)) :
    ∀ (s : ℚ × (Fin m → ℚ) × (Fin m → ℚ)) (i : Fin m),
      ((xss.foldl stepVec s).1,
       (xss.foldl stepVec s).2.1 i,
       (xss.foldl stepVec s).2.2 i) =
        (xss.map (fun v => v i)).foldl step3 (s.1, s.2.1 i, s.2.2 i) := by
  induction xss with
  | nil => intro s i; simp
  | cons x t ih =>
    intro s i
    rw [List.foldl_cons, List.map_cons, List.foldl_cons]
    rw [ih (stepVec s x) i]
    rfl

/-- C1: starting from count `0`, zero mean and zero M2, after feeding any `N`
same-length observation vectors through `update_variance` the running count
is `N` and the running mean is, in every bin, the arithmetic mean of the `N`
observations in that bin; consequently any reordering of the updates yields
the same final mean (and count).  Stated over exact arithmetic. -/
lemma foldl_stepVec_count {m : ℕ} (xss : List (Fin m → ℚ)) :
    ∀ s : ℚ × (Fin m → ℚ) × (Fin m → ℚ),
      (xss.foldl stepVec s).1 = s.1 + xss.length := by
  induction xss with
  | nil => intro s; simp
  | cons x t ih =>
    intro s
    rw [List.foldl_cons, ih (stepVec s x)]
    show s.1 + 1 + (t.length : ℚ) = s.1 + ((t.length + 1 : ℕ) : ℚ)
    push_cast
    ring

theorem update_variance_final_mean {m : ℕ} (xss yss : List (Fin m → ℚ))
    (hperm : xss.Perm yss) :
    (runVec xss).1 = (xss.length : ℚ) ∧
    (runVec xss).2.1 = (fun i => (xss.map (fun v => v i)).sum / (xss.length : ℚ)) ∧
    (runVec yss).2.1 = (runVec xss).2.1 := by
  have key : ∀ (zss : List (Fin m → ℚ)) (i : Fin m),
      (runVec zss).2.1 i = (zss.map (fun v => v i)).sum / (zss.length : ℚ) := by
    intro zss i
    have h := foldl_stepVec_component zss (0, fun _ => 0, fun _ => 0) i
    have h0 : ((0 : ℚ), (0 : ℚ), (0 : ℚ)) =
        (((List.nil (α := ℚ)).length : ℚ), meanL [], sqDev []) := by
      simp [meanL, sqDev]
    rw [runVec]
    rw [h0] at h
    rw [foldl_step3_stateOf] at h
    have hsnd := congrArg (fun q => q.2.1) h
    simp only [List.nil_append] at hsnd
    simpa [meanL, List.length_map] using hsnd
  refine ⟨?_, ?_, ?_⟩
  · rw [runVec, foldl_stepVec_count]
    simp
  · funext i
    exact key xss i
  · funext i
    rw [key yss i, key xss i]
    have hs : (yss.map (fun v => v i)).sum = (xss.map (fun v => v i)).sum :=
      (hperm.map (fun v => v i)).symm.sum_eq
    rw [hs, hperm.length_eq]

/-- Witness for `update_variance_final_mean`: two one-bin observations `1`
and `3` give final mean `2`, and the reversed order gives the same mean. -/
theorem update_variance_final_mean_witness :
    (runVec [(fun _ => 1 : Fin 1 → ℚ), (fun _ => 3 : Fin 1 → ℚ)]).2.1 =
      (fun _ => 2) ∧
    (runVec [(fun _ => 3 : Fin 1 → ℚ), (fun _ => 1 : Fin 1 → ℚ)]).2.1 =
      (runVec [(fun _ => 1 : Fin 1 → ℚ), (fun _ => 3 : Fin 1 → ℚ)]).2.1 := by
  have h := update_variance_final_mean
    [(fun _ => 1 : Fin 1 → ℚ), (fun _ => 3 : Fin 1 → ℚ)]
    [(fun _ => 3 : Fin 1 → ℚ), (fun _ => 1 : Fin 1 → ℚ)]
    (List.Perm.swap _ _ _)
  refine ⟨?_, h.2.2⟩
  rw [h.2.1]
  funext i
  norm_num

/-- C2: after at least one update, the variance returned by the latest
`update_variance` call equals `M2 / (count - 1)` when the resulting count is
at least 2 and is exactly positive infinity when the count is below 2; for
count ≥ 2 it also equals the two-pass estimate, the sum of squared
deviations from the arithmetic mean divided by `N - 1`.  Stated over exact
arithmetic. -/
theorem update_variance_variance_correct (xs : List ℚ) (h : xs ≠ []) :
    (2 ≤ xs.length →
      (runUV xs).2.2.2 = (((runUV xs).2.2.1 / ((runUV xs).1 - 1) : ℚ) : WithTop ℚ) ∧
      (runUV xs).2.2.2 =
        (((xs.map (fun x => (x - xs.sum / (xs.length : ℚ)) ^ 2)).sum /
            ((xs.length : ℚ) - 1) : ℚ) : WithTop ℚ)) ∧
    (xs.length < 2 → (runUV xs).2.2.2 = ⊤) := by
  rw [runUV_eq_stateOf]
  constructor
  · intro h2
    have hnot : ¬ xs.length < 2 := by omega
    constructor
    · simp [stateOf, varL, hnot]
    · simp [stateOf, varL, hnot, sqDev, meanL]
  · intro h2
    simp [stateOf, varL, h2]

/-- Witness for `update_variance_variance_correct`: the observations
`[1, 2, 3]` have variance `1` by the two-pass formula, and the incremental
variance agrees. -/
theorem update_variance_variance_correct_witness :
    (runUV [(1 : ℚ), 2, 3]).2.2.2 = (((1 : ℚ)) : WithTop ℚ) ∧
    ((1 : ℚ)) = ([(1 : ℚ), 2, 3].map
        (fun x => (x - [(1 : ℚ), 2, 3].sum / (([(1 : ℚ), 2, 3].length : ℕ) : ℚ)) ^ 2)).sum /
      ((([(1 : ℚ), 2, 3].length : ℕ) : ℚ) - 1) := by
  have hval : ((1 : ℚ)) = ([(1 : ℚ), 2, 3].map
      (fun x => (x - [(1 : ℚ), 2, 3].sum / (([(1 : ℚ), 2, 3].length : ℕ) : ℚ)) ^ 2)).sum /
      ((([(1 : ℚ), 2, 3].length : ℕ) : ℚ) - 1) := by
    norm_num
  refine ⟨?_, hval⟩
  have h := (update_variance_variance_correct [(1 : ℚ), 2, 3] (by decide)).1
    (by decide)
  rw [h.2, ← hval]

/-! ## Python string and number primitives

The readers use `str.split()` (split on whitespace runs), `str.find` for
substring search, `str.lower`, and the `int()` / `float()` conversions,
which fail with `ValueError` on non-numeric text.  `int()` and `float()`
are modelled on the decimal token grammar (optional sign, digits, optional
fractional part); conversion failure is `none`. -/

/-- Accumulate the value of a decimal digit string; `none` on a non-digit. -/
def digitsVal : List Char → ℕ → Option ℕ
  | [], acc => some acc
  | c :: cs, acc =>
    if c.isDigit then digitsVal cs (acc * 10 + (c.toNat - ('0').toNat))
    else none

/-- Value of a non-empty decimal digit string. -/
def parseDigits (l : List Char) : Option ℕ :=
  if l.isEmpty then none else digitsVal l 0

/-- Python `int(s)` on a whitespace-free token: optional sign then digits. -/
def pyInt (s : String) : Option ℤ :=
  match s.data with
  | [] => none
  | c :: rest =>
    if c = '-' then (parseDigits rest).map (fun n => -(n : ℤ))
    else if c = '+' then (parseDigits rest).map (fun n => (n : ℤ))
    else (parseDigits (c :: rest)).map (fun n => (n : ℤ))

/-- Unsigned part of Python `float(s)`: digits with an optional single
point, at least one digit present. -/
def parseUF (l : List Char) : Option ℚ :=
  if l.contains '.' then
    let ip := l.takeWhile (fun c => c ≠ '.')
    let fp := (l.dropWhile (fun c => c ≠ '.')).drop 1
    if fp.contains '.' then none
    else if ip.isEmpty && fp.isEmpty then none
    else
      match digitsVal ip 0, digitsVal fp 0 with
      | some a, some b => some ((a : ℚ) + (b : ℚ) / (10 : ℚ) ^ fp.length)
      | _, _ => none
  else (parseDigits l).map (fun n => (n : ℚ))

/-- Python `float(s)` on a whitespace-free token. -/
def pyFloat (s : String) : Option ℚ :=
  match s.data with
  | [] => none
  | c :: rest =>
    if c = '-' then (parseUF rest).map (fun q => -q)
    else if c = '+' then parseUF rest
    else parseUF (c :: rest)

/-- Split a character list at whitespace runs, accumulating the current
token in reverse. -/
def splitWSAux : List Char → List Char → List (List Char)
  | [], acc => if acc.isEmpty then [] else [acc.reverse]
  | c :: cs, acc =>
    if c.isWhitespace then
      if acc.isEmpty then splitWSAux cs []
      else acc.reverse :: splitWSAux cs []
    else splitWSAux cs (c :: acc)

/-- Python `s.strip().split()`: whitespace-run splitting with empty pieces
dropped (leading/trailing whitespace is thereby ignored, so the `strip` is
subsumed). -/
def pySplit (s : String) : List String :=
  (splitWSAux s.data []).map (fun cs => ⟨cs⟩)

/-- ASCII lowering of one character, as Python `str.lower` acts on the
ASCII keys appearing in the input formats. -/
def charLower (c : Char) : Char :=
  if ('A' ≤ c && c ≤ 'Z') then Char.ofNat (c.toNat + 32) else c

/-- Python `s.lower()`. -/
def pyLower (s : String) : String := ⟨s.data.map charLower⟩

/-- Substring occurrence test over the character lists, modelling
`s.find(pat) != -1`. -/
def subOccurs (p : List Char) : List Char → Bool
  | [] => p.isEmpty
  | c :: cs => p.isPrefixOf (c :: cs) || subOccurs p cs

/-- Python `s.find(pat) != -1` as a Boolean. -/
def containsSub (s pat : String) : Bool :=
  subOccurs pat.data s.data

/-! ## Chunked-profile segmenter (`average_lammps_profile.read_lammps_profile`)

The generator is modelled as a line-by-line state machine.  Each step
returns the records yielded while consuming that line together with either
the successor state or the uncaught `ValueError` the Python code would
raise.  A full run returns all yielded records and the error, if any. -/

/-- A yielded record: `(keys, step, data)`. -/
abbrev ProfRec := List String × ℤ × List (List ℚ)

/-- Loop state of `read_lammps_profile`. -/
structure ProfState where
  cols : ℤ
  lines_to_read : ℤ
  data : List (List ℚ)
  keys : List String
  step : ℤ
deriving DecidableEq

/-- One iteration of the `for lines in infile` loop of
`read_lammps_profile` (lines 21-38 of `average_lammps_profile.py`).  In the
opening-line branch the record is yielded (first component) before the two
leading tokens are converted with `int`, matching the Python order of
effects. -/
def profStep (s : ProfState) (line : String) : List ProfRec × Except String ProfState :=
  if containsSub line ("# Chunk ") then
    ([], .ok { s with cols := ((pySplit line).length : ℤ) - 1,
                      keys := ((pySplit line).drop 1).map pyLower })
  else if 0 < s.cols then
    if 0 < s.lines_to_read then
      if ((pySplit line).length : ℤ) = s.cols then
        match (pySplit line).mapM pyFloat with
        | some row =>
          ([], .ok { s with data := s.data ++ [row],
                            lines_to_read := s.lines_to_read - 1 })
        | none => ([], .error ("ValueError: could not convert string to float"))
      else ([], .ok s)
    else
      ((if s.data.isEmpty then [] else [(s.keys, s.step, s.data)]),
       match ((pySplit line).take 2).mapM pyInt with
       | some [a, b] => .ok { s with data := [], step := a, lines_to_read := b }
       | some _ => .error ("ValueError: not enough values to unpack")
       | none => .error ("ValueError: invalid literal for int"))
  else ([], .ok s)

/-- Run the loop over a list of input lines. -/
def runProf : ProfState → List String → List ProfRec × Except String ProfState
  | s, [] => ([], .ok s)
  | s, line :: rest =>
    match profStep s line with
    | (recs, .error e) => (recs, .error e)
    | (recs, .ok s') => (recs ++ (runProf s' rest).1, (runProf s' rest).2)

/-- Initial state of `read_lammps_profile`. -/
def initProf : ProfState := ⟨0, 0, [], [], 0⟩

/-- The whole generator `read_lammps_profile`: all yielded records plus the
uncaught exception, if one occurred.  At end-of-input the accumulated data,
if any, is yielded (`if data: yield keys, step, data`). -/
def read_lammps_profile (ls : List String) : List ProfRec × Option String :=
  match runProf initProf ls with
  | (recs, .error e) => (recs, some e)
  | (recs, .ok s) =>
    (recs ++ (if s.data.isEmpty then [] else [(s.keys, s.step, s.data)]), none)

lemma profStep_spec (s : ProfState) (line : String) :
    ((profStep s line).1 = [] ∧
      ∀ s', (profStep s line).2 = .ok s' →
        (s'.data = s.data ∧ s'.lines_to_read = s.lines_to_read) ∨
        (∃ row, s'.data = s.data ++ [row] ∧
          s'.lines_to_read = s.lines_to_read - 1 ∧ 0 < s.lines_to_read) ∨
        (s.data = [] ∧ ¬ 0 < s.lines_to_read)) ∨
    ((profStep s line).1 = [(s.keys, s.step, s.data)] ∧
      ¬ 0 < s.lines_to_read ∧ s.data ≠ []) := by
  unfold profStep
  by_cases h1 : containsSub line ("# Chunk ") = true
  · rw [if_pos h1]
    exact Or.inl ⟨rfl, fun s' hs' => by cases hs'; exact Or.inl ⟨rfl, rfl⟩⟩
  · rw [if_neg h1]
    by_cases h2 : 0 < s.cols
    · rw [if_pos h2]
      by_cases h3 : 0 < s.lines_to_read
      · rw [if_pos h3]
        by_cases h4 : ((pySplit line).length : ℤ) = s.cols
        · rw [if_pos h4]
          rcases hm : (pySplit line).mapM pyFloat with _ | row
          · exact Or.inl ⟨rfl, fun s' hs' => by cases hs'⟩
          · exact Or.inl ⟨rfl, fun s' hs' => by
              cases hs'
              exact Or.inr (Or.inl ⟨row, rfl, rfl, h3⟩)⟩
        · rw [if_neg h4]
          exact Or.inl ⟨rfl, fun s' hs' => by cases hs'; exact Or.inl ⟨rfl, rfl⟩⟩
      · rw [if_neg h3]
        by_cases hd : s.data.isEmpty = true
        · have hd' : s.data = [] := by simpa using hd
          rw [if_pos hd]
          exact Or.inl ⟨rfl, fun s' hs' => Or.inr (Or.inr ⟨hd', h3⟩)⟩
        · have hd' : s.data ≠ [] := by simpa using hd
          rw [if_neg hd]
          exact Or.inr ⟨rfl, h3, hd'⟩
    · rw [if_neg h2]
      exact Or.inl ⟨rfl, fun s' hs' => by cases hs'; exact Or.inl ⟨rfl, rfl⟩⟩

lemma runProf_head_rows (L : List String) :
    ∀ (s : ProfState) (n : ℤ), 0 ≤ s.lines_to_read →
      (s.data.length : ℤ) + s.lines_to_read = n → 0 < n →
      ∀ r : ProfRec, (runProf s L).1.head? = some r →
      (r.2.2.length : ℤ) = n := by
  induction L with
  | nil =>
    intro s n _ _ _ r hr
    simp [runProf] at hr
  | cons line rest ih =>
    intro s n h0 hsum hn r hr
    rw [runProf] at hr
    rcases profStep_spec s line with ⟨hempty, hok⟩ | ⟨hyld, hltr, hdata⟩
    · rcases hstep : profStep s line with ⟨recs, e⟩
      rw [hstep] at hempty hok hr
      simp only at hempty hok
      subst hempty
      cases e with
      | error e => simp at hr
      | ok s' =>
        simp only [List.nil_append] at hr
        rcases hok s' rfl with ⟨hdeq, hleq⟩ | ⟨row, hdeq, hleq, hpos⟩ | ⟨hdnil, hneg⟩
        · exact ih s' n (by rw [hleq]; exact h0)
            (by rw [hdeq, hleq]; exact hsum) hn r hr
        · refine ih s' n ?_ ?_ hn r hr
          · rw [hleq]; omega
          · rw [hdeq, hleq]
            simp only [List.length_append, List.length_cons, List.length_nil]
            push_cast
            omega
        · exfalso
          rw [hdnil] at hsum
          simp at hsum
          omega
    · have hlen : (s.data.length : ℤ) = n := by omega
      rcases hstep : profStep s line with ⟨recs, e⟩
      rw [hstep] at hyld hr
      simp only at hyld
      subst hyld
      cases e with
      | error e =>
        simp only [List.head?] at hr
        cases hr
        exact hlen
      | ok s' =>
        simp only [List.cons_append, List.head?] at hr
        cases hr
        exact hlen

/-- C3, amended: every record yielded on encountering a later opening line
contains exactly the number of rows declared in its own opening line: from
a freshly opened record (`data = []`, `lines_to_read = n > 0`), the first
subsequently yielded record has exactly `n` rows.  The original claim's
other half is false: at end-of-input a short record IS yielded (see
`read_lammps_profile_short_record_yielded`). -/
theorem profile_first_yield_has_declared_rows
    (c n st : ℤ) (keys : List String) (L : List String)
    (hn : 0 < n) (r : ProfRec)
    (hr : (runProf ⟨c, n, [], keys, st⟩ L).1.head? = some r) :
    (r.2.2.length : ℤ) = n := by
  exact runProf_head_rows L ⟨c, n, [], keys, st⟩ n (le_of_lt hn)
    (by simp) hn r hr

/-- Witness for `profile_first_yield_has_declared_rows`: a record opened
with one declared row yields, at the next opening line, a record with
exactly one row. -/
theorem profile_first_yield_has_declared_rows_witness :
    (runProf ⟨2, 1, [], [("chunk"), ("a")], 0⟩
        [("1 2\n"), ("0 1\n")]).1.head? =
      some ([("chunk"), ("a")], 0, [[(1 : ℚ), 2]]) ∧
    ((([("chunk"), ("a")], (0 : ℤ), [[(1 : ℚ), 2]]) : ProfRec).2.2.length : ℤ) = 1 := by
  constructor
  · decide
  · exact profile_first_yield_has_declared_rows 2 1 0 [("chunk"), ("a")]
      [("1 2\n"), ("0 1\n")] (by decide) _ (by decide)

/-- Counterexample to C3 as stated: on this input the opening line declares
2 rows but only one data row follows before end-of-input, and the short
record (1 row) is nevertheless yielded at end-of-input. -/
theorem read_lammps_profile_short_record_yielded :
    read_lammps_profile [("# Chunk a\n"), ("0 2\n"), ("1 2\n")] =
      ([([("chunk"), ("a")], 0, [[(1 : ℚ), 2]])], none) := by
  decide

/-- C5: while a record is in progress (`cols > 0`, `lines_to_read > 0`) and
the line is not a chunk-header line, a data line whose whitespace-token
count differs from the current column count is silently dropped — no
record is yielded, no error is raised and the state (in particular the
rows-to-read counter) is unchanged; a line whose token count matches is
converted, appended and counted down. -/
theorem profile_row_token_count_discipline (s : ProfState) (line : String)
    (h1 : containsSub line ("# Chunk ") = false)
    (h2 : 0 < s.cols) (h3 : 0 < s.lines_to_read) :
    (((pySplit line).length : ℤ) ≠ s.cols → profStep s line = ([], .ok s)) ∧
    (∀ row, ((pySplit line).length : ℤ) = s.cols →
      (pySplit line).mapM pyFloat = some row →
      profStep s line = ([], .ok { s with data := s.data ++ [row],
                                          lines_to_read := s.lines_to_read - 1 })) := by
  constructor
  · intro hne
    unfold profStep
    simp only [h1, Bool.false_eq_true, if_false, h2, if_true, h3, hne]
  · intro row heq hmap
    unfold profStep
    simp only [h1, Bool.false_eq_true, if_false, h2, if_true, h3, heq, hmap]

/-- Witness for `profile_row_token_count_discipline`: with two declared
columns, the one-token line `oops` is dropped without touching the state,
and a proper two-token line is appended and counted. -/
theorem profile_row_token_count_discipline_witness :
    (profStep ⟨2, 3, [], [("a")], 0⟩ ("oops\n") = ([], .ok ⟨2, 3, [], [("a")], 0⟩)) ∧
    (profStep ⟨2, 3, [], [("a")], 0⟩ ("15 25\n") =
      ([], .ok ⟨2, 2, [[(15 : ℚ), 25]], [("a")], 0⟩)) := by
  have h := profile_row_token_count_discipline ⟨2, 3, [], [("a")], 0⟩ ("oops\n")
    (by decide) (by decide) (by decide)
  have h2 := profile_row_token_count_discipline ⟨2, 3, [], [("a")], 0⟩ ("15 25\n")
    (by decide) (by decide) (by decide)
  constructor
  · exact h.1 (by decide)
  · have h3 := h2.2 [(15 : ℚ), 25] (by decide) (by decide)
    simpa using h3

/-! ## Log-block reader (`read_lammps_log.py`)

A `Step ...` line opens a block and defines its keys; a `Loop time` line
closes it; every line in between is converted to a tuple of floats.  A
tuple whose length differs from the previous row's length is reported and
skipped. -/

/-- Python `s.startswith(pre)`. -/
def pyStartsWith (s pre : String) : Bool :=
  pre.data.isPrefixOf s.data

/-- A yielded log block: `(keys, data)`; `keys` is `None` before the first
`Step` line. -/
abbrev LogRec := Option (List String) × List (List ℚ)

/-- Loop state of `read_lammps_log`. -/
structure LogState where
  keys : Option (List String)
  data : List (List ℚ)
  read : Bool
deriving DecidableEq

/-- One iteration of the `for lines in infile` loop of `read_lammps_log`
(lines 18-41 of `read_lammps_log.py`). -/
def logStep (s : LogState) (line : String) : List LogRec × Except String LogState :=
  if pyStartsWith line ("Step") then
    ((if s.data.isEmpty then [] else [(s.keys, s.data)]),
     .ok ⟨some ((pySplit line).map pyLower), [], true⟩)
  else if s.read then
    if pyStartsWith line ("Loop time") then
      if s.data.isEmpty then ([], .ok s)
      else ([(s.keys, s.data)], .ok ⟨none, [], false⟩)
    else
      match (pySplit line).mapM pyFloat with
      | none => ([], .error ("ValueError: could not convert string to float"))
      | some new_data =>
        if s.data.isEmpty then ([], .ok { s with data := [new_data] })
        else if new_data.length ≠ (s.data.getLastD []).length then
          ([], .ok s)
        else ([], .ok { s with data := s.data ++ [new_data] })
  else ([], .ok s)

/-- Run the log loop over a list of input lines. -/
def runLog : LogState → List String → List LogRec × Except String LogState
  | s, [] => ([], .ok s)
  | s, line :: rest =>
    match logStep s line with
    | (recs, .error e) => (recs, .error e)
    | (recs, .ok s') => (recs ++ (runLog s' rest).1, (runLog s' rest).2)

/-- The whole generator `read_lammps_log`: yielded blocks plus the uncaught
exception, if any, with the end-of-input yield of a non-empty block. -/
def read_lammps_log (ls : List String) : List LogRec × Option String :=
  match runLog ⟨none, [], false⟩ ls with
  | (recs, .error e) => (recs, some e)
  | (recs, .ok s) =>
    (recs ++ (if s.data.isEmpty then [] else [(s.keys, s.data)]), none)

/-- All rows of a block have the length of its first row. -/
def EqLen (d : List (List ℚ)) : Prop :=
  ∀ r ∈ d, r.length = (d.headD []).length

lemma getLastD_mem_of_ne_nil {α : Type} (l : List α) (d : α) (h : l ≠ []) :
    l.getLastD d ∈ l := by
  rw [List.getLastD_eq_getLast?, List.getLast?_eq_getLast l h]
  simpa using List.getLast_mem h

lemma EqLen_append (d : List (List ℚ)) (nd : List ℚ) (hd : d ≠ [])
    (hE : EqLen d) (hlen : nd.length = (d.getLastD []).length) :
    EqLen (d ++ [nd]) := by
  have hlast : (d.getLastD []).length = (d.headD []).length :=
    hE _ (getLastD_mem_of_ne_nil d [] hd)
  intro r hr
  have hhead : (d ++ [nd]).headD [] = d.headD [] := by
    cases d with
    | nil => exact absurd rfl hd
    | cons a t => simp
  rw [hhead]
  rcases List.mem_append.mp hr with h | h
  · exact hE r h
  · simp only [List.mem_singleton] at h
    subst h
    rw [hlen, hlast]

lemma logStep_rect (s : LogState) (line : String) (hE : EqLen s.data) :
    (∀ blk ∈ (logStep s line).1, EqLen blk.2) ∧
    (∀ s', (logStep s line).2 = .ok s' → EqLen s'.data) := by
  unfold logStep
  by_cases h1 : pyStartsWith line ("Step") = true
  · rw [if_pos h1]
    constructor
    · intro blk hblk
      by_cases hd : s.data.isEmpty = true
      · rw [if_pos hd] at hblk; simp at hblk
      · rw [if_neg hd] at hblk
        simp only [List.mem_singleton] at hblk
        subst hblk
        exact hE
    · intro s' hs'
      cases hs'
      intro r hr
      simp at hr
  · rw [if_neg h1]
    by_cases h2 : s.read = true
    · rw [if_pos h2]
      by_cases h3 : pyStartsWith line ("Loop time") = true
      · rw [if_pos h3]
        by_cases hd : s.data.isEmpty = true
        · rw [if_pos hd]
          exact ⟨fun blk hblk => by simp at hblk,
                 fun s' hs' => by cases hs'; exact hE⟩
        · rw [if_neg hd]
          constructor
          · intro blk hblk
            simp only [List.mem_singleton] at hblk
            subst hblk
            exact hE
          · intro s' hs'
            cases hs'
            intro r hr
            simp at hr
      · rw [if_neg h3]
        rcases hm : (pySplit line).mapM pyFloat with _ | nd
        · exact ⟨fun blk hblk => by simp at hblk, fun s' hs' => by cases hs'⟩
        · dsimp only
          by_cases hd : s.data.isEmpty = true
          · rw [if_pos hd]
            refine ⟨fun blk hblk => by simp at hblk, fun s' hs' => ?_⟩
            cases hs'
            intro r hr
            simp only [List.mem_singleton] at hr
            subst hr
            simp
          · rw [if_neg hd]
            have hd' : s.data ≠ [] := by simpa using hd
            by_cases hl : nd.length ≠ (s.data.getLastD []).length
            · rw [if_pos hl]
              exact ⟨fun blk hblk => by simp at hblk,
                     fun s' hs' => by cases hs'; exact hE⟩
            · rw [if_neg hl]
              push_neg at hl
              refine ⟨fun blk hblk => by simp at hblk, fun s' hs' => ?_⟩
              cases hs'
              exact EqLen_append s.data nd hd' hE hl
    · rw [if_neg h2]
      exact ⟨fun blk hblk => by simp at hblk,
             fun s' hs' => by cases hs'; exact hE⟩

lemma runLog_rect (L : List String) :
    ∀ s : LogState, EqLen s.data →
      (∀ blk ∈ (runLog s L).1, EqLen blk.2) ∧
      (∀ s', (runLog s L).2 = .ok s' → EqLen s'.data) := by
  induction L with
  | nil =>
    intro s hE
    refine ⟨fun blk hblk => by simp [runLog] at hblk, fun s' hs' => ?_⟩
    rw [runLog] at hs'
    cases hs'
    exact hE
  | cons line rest ih =>
    intro s hE
    rw [runLog]
    rcases hstep : logStep s line with ⟨recs, e⟩
    have hspec := logStep_rect s line hE
    rw [hstep] at hspec
    cases e with
    | error e =>
      exact ⟨fun blk hblk => hspec.1 blk hblk, fun s' hs' => by cases hs'⟩
    | ok s' =>
      have hE' : EqLen s'.data := hspec.2 s' rfl
      constructor
      · intro blk hblk
        rcases List.mem_append.mp hblk with h | h
        · exact hspec.1 blk h
        · exact (ih s' hE').1 blk h
      · exact (ih s' hE').2

/-- C9: in the log reader, a data row that converts to floats but whose
value count differs from the rows already accepted in the block is skipped
(diagnostic printed, state unchanged, no error), and consequently every
yielded block is rectangular: all its rows have the first row's length. -/
theorem log_inconsistent_rows_skipped_blocks_rectangular :
    (∀ (s : LogState) (line : String) (nd : List ℚ),
      s.read = true →
      pyStartsWith line ("Step") = false →
      pyStartsWith line ("Loop time") = false →
      (pySplit line).mapM pyFloat = some nd →
      s.data ≠ [] →
      EqLen s.data →
      nd.length ≠ (s.data.headD []).length →
      logStep s line = ([], .ok s)) ∧
    (∀ (ls : List String) (blk : LogRec), blk ∈ (read_lammps_log ls).1 →
      EqLen blk.2) := by
  constructor
  · intro s line nd hread hstep hloop hm hd hE hne
    have hlast : (s.data.getLastD []).length = (s.data.headD []).length :=
      hE _ (getLastD_mem_of_ne_nil s.data [] hd)
    have hne' : nd.length ≠ (s.data.getLastD []).length := by
      rw [hlast]; exact hne
    unfold logStep
    rw [if_neg (by rw [hstep]; exact Bool.false_ne_true),
        if_pos hread, if_neg (by rw [hloop]; exact Bool.false_ne_true), hm]
    dsimp only
    rw [if_neg (by simpa using hd), if_pos hne']
  · intro ls blk hblk
    unfold read_lammps_log at hblk
    rcases hrun : runLog ⟨none, [], false⟩ ls with ⟨recs, e⟩
    have hrect := runLog_rect ls ⟨none, [], false⟩ (by intro r hr; simp at hr)
    rw [hrun] at hblk hrect
    cases e with
    | error e =>
      exact hrect.1 blk hblk
    | ok s =>
      simp only at hblk
      rcases List.mem_append.mp hblk with h | h
      · exact hrect.1 blk h
      · by_cases hd : s.data.isEmpty = true
        · rw [if_pos hd] at h; simp at h
        · rw [if_neg hd] at h
          simp only [List.mem_singleton] at h
          subst h
          exact hrect.2 s rfl

/-- Witness for `log_inconsistent_rows_skipped_blocks_rectangular`: a
one-value row arriving after a two-value row is skipped without error, and
the block yielded from a small concrete log is rectangular. -/
theorem log_inconsistent_rows_skipped_blocks_rectangular_witness :
    logStep ⟨some [("step")], [[(3 : ℚ), 4]], true⟩ ("9\n") =
      ([], .ok ⟨some [("step")], [[(3 : ℚ), 4]], true⟩) ∧
    EqLen ((some [("step"), ("a")], [[(3 : ℚ), 4], [5, 6]]) : LogRec).2 := by
  constructor
  · exact log_inconsistent_rows_skipped_blocks_rectangular.1
      ⟨some [("step")], [[(3 : ℚ), 4]], true⟩ ("9\n") [9]
      rfl (by decide) (by decide) (by decide) (by decide)
      (by intro r hr; fin_cases hr <;> rfl) (by decide)
  · exact log_inconsistent_rows_skipped_blocks_rectangular.2
      [("Step a\n"), ("3 4\n"), ("5 6\n")]
      (some [("step"), ("a")], [[(3 : ℚ), 4], [5, 6]]) (by decide)

/-- Counterexample to C4 as stated: a malformed in-stream line does crash a
reader.  In `read_lammps_log`, the line `abc` inside a block fails `float`
conversion and the `ValueError` propagates uncaught. -/
theorem read_lammps_log_raises_on_malformed_row :
    read_lammps_log [("Step v\n"), ("abc\n")] =
      ([], some ("ValueError: could not convert string to float")) := by
  decide

/-! ## Trajectory atom parsing and type inference (`read_lammpstrj.py`)

`guess_string_format` classifies a token as integer, float or string by
attempted conversion in that order; `read_atom_data` converts one atom row
under the per-column formats, re-inferring a column's format when its
current one fails. -/

/-- The three Python types a trajectory column can carry. -/
inductive PyFmt where
  | int : PyFmt
  | float : PyFmt
  | str : PyFmt
deriving DecidableEq

/-- A parsed atom field value. -/
inductive PyVal where
  | intV : ℤ → PyVal
  | floatV : ℚ → PyVal
  | strV : String → PyVal
deriving DecidableEq

/-- Apply a format (conversion function) to a token; `none` models the
`ValueError` of a failed conversion (`str` never fails). -/
def applyFmt : PyFmt → String → Option PyVal
  | .int, s => (pyInt s).map PyVal.intV
  | .float, s => (pyFloat s).map PyVal.floatV
  | .str, s => some (PyVal.strV s)

/-- `guess_string_format` from `read_lammpstrj.py` lines 74-84: try `int`,
then `float`, fall back to `str`. -/
def guess_string_format (string : String) : PyFmt :=
  match pyInt string with
  | some _ => .int
  | none =>
    match pyFloat string with
    | some _ => .float
    | none => .str

/-- The conversion loop of `read_atom_data` (lines 133-142): walk the
zipped (token, format) pairs, converting each token with its column format
and re-inferring the format on failure.  Formats beyond the zipped prefix
are kept; tokens beyond it are dropped (`zip` semantics). -/
def readAtomLoop : List String → List PyFmt → Except String (List PyVal × List PyFmt)
  | [], fs => .ok ([], fs)
  | _ :: _, [] => .ok ([], [])
  | t :: ts, f :: fs =>
    match applyFmt f t with
    | some v =>
      match readAtomLoop ts fs with
      | .ok (vs, fs') => .ok (v :: vs, f :: fs')
      | .error e => .error e
    | none =>
      match applyFmt (guess_string_format t) t with
      | some v =>
        match readAtomLoop ts fs with
        | .ok (vs, fs') => .ok (v :: vs, guess_string_format t :: fs')
        | .error e => .error e
      | none => .error ("ValueError")

/-- `read_atom_data(atom_format, line)`: when no format list exists yet it
is inferred from the tokens themselves; returns the formatted values and
the updated format list. -/
def read_atom_data (atom_format : Option (List PyFmt)) (toks : List String) :
    Except String (List PyVal × List PyFmt) :=
  match atom_format with
  | none => readAtomLoop toks (toks.map guess_string_format)
  | some f => readAtomLoop toks f

lemma applyFmt_guess_total (t : String) :
    ∃ v, applyFmt (guess_string_format t) t = some v := by
  unfold guess_string_format
  rcases h1 : pyInt t with _ | z
  · rcases h2 : pyFloat t with _ | q
    · exact ⟨.strV t, rfl⟩
    · exact ⟨.floatV q, by simp [applyFmt, h2]⟩
  · exact ⟨.intV z, by simp [applyFmt, h1]⟩

lemma digitsVal_all_digits :
    ∀ (l : List Char) (acc n : ℕ), digitsVal l acc = some n →
      ∀ c ∈ l, c.isDigit = true := by
  intro l
  induction l with
  | nil => intro acc n _ c hc; simp at hc
  | cons a t ih =>
    intro acc n h c hc
    rw [digitsVal] at h
    by_cases ha : a.isDigit = true
    · rw [if_pos ha] at h
      rcases List.mem_cons.mp hc with rfl | hc'
      · exact ha
      · exact ih _ n h c hc'
    · rw [if_neg ha] at h
      cases h

lemma parseUF_of_parseDigits (l : List Char) (n : ℕ)
    (h : parseDigits l = some n) : parseUF l = some ((n : ℚ)) := by
  have h2 : digitsVal l 0 = some n := by
    unfold parseDigits at h
    by_cases he : l.isEmpty = true
    · rw [if_pos he] at h; cases h
    · rw [if_neg he] at h; exact h
  have hdig := digitsVal_all_digits l 0 n h2
  have hcon : l.contains '.' = false := by
    cases hcb : l.contains '.' with
    | false => rfl
    | true =>
      have hm : '.' ∈ l := List.mem_of_elem_eq_true hcb
      have := hdig '.' hm
      exact absurd this (by decide)
  unfold parseUF
  rw [hcon]
  simp [h]

lemma pyFloat_of_pyInt (s : String) (z : ℤ) (h : pyInt s = some z) :
    ∃ q : ℚ, pyFloat s = some q := by
  unfold pyInt at h
  unfold pyFloat
  rcases hsd : s.data with _ | ⟨c, rest⟩
  · rw [hsd] at h
    simp at h
  · rw [hsd] at h
    dsimp only at h ⊢
    by_cases hc1 : c = '-'
    · rw [if_pos hc1] at h ⊢
      rcases hr : parseDigits rest with _ | n
      · rw [hr] at h; simp at h
      · rw [parseUF_of_parseDigits rest n hr]
        exact ⟨-(n : ℚ), rfl⟩
    · rw [if_neg hc1] at h ⊢
      by_cases hc2 : c = '+'
      · rw [if_pos hc2] at h ⊢
        rcases hr : parseDigits rest with _ | n
        · rw [hr] at h; simp at h
        · rw [parseUF_of_parseDigits rest n hr]
          exact ⟨(n : ℚ), rfl⟩
      · rw [if_neg hc2] at h ⊢
        rcases hr : parseDigits (c :: rest) with _ | n
        · rw [hr] at h; simp at h
        · rw [parseUF_of_parseDigits _ n hr]
          exact ⟨(n : ℚ), rfl⟩

/-- Widening rank of a format: `int < float < str`. -/
def fmtRank : PyFmt → ℕ
  | .int => 0
  | .float => 1
  | .str => 2

lemma fmtRank_lt_guess (f : PyFmt) (t : String) (h : applyFmt f t = none) :
    fmtRank f < fmtRank (guess_string_format t) := by
  cases f with
  | str => simp [applyFmt] at h
  | int =>
    have hint : pyInt t = none := by
      rcases hpi : pyInt t with _ | z
      · rfl
      · rw [applyFmt, hpi] at h; cases h
    unfold guess_string_format
    rw [hint]
    rcases hf : pyFloat t with _ | q <;> simp [fmtRank]
  | float =>
    have hfl : pyFloat t = none := by
      rcases hpf : pyFloat t with _ | q
      · rfl
      · rw [applyFmt, hpf] at h; cases h
    have hint : pyInt t = none := by
      rcases hpi : pyInt t with _ | z
      · rfl
      · obtain ⟨q, hq⟩ := pyFloat_of_pyInt t z hpi
        rw [hq] at hfl; cases hfl
    unfold guess_string_format
    rw [hint, hfl]
    simp [fmtRank]

lemma readAtomLoop_total :
    ∀ (ts : List String) (fs : List PyFmt), ∃ r, readAtomLoop ts fs = .ok r := by
  intro ts
  induction ts with
  | nil => intro fs; exact ⟨([], fs), rfl⟩
  | cons t ts ih =>
    intro fs
    cases fs with
    | nil => exact ⟨([], []), rfl⟩
    | cons f fs0 =>
      obtain ⟨⟨vs0, fs0'⟩, hr⟩ := ih fs0
      rcases ha : applyFmt f t with _ | v
      · obtain ⟨v, hv⟩ := applyFmt_guess_total t
        refine ⟨(v :: vs0, guess_string_format t :: fs0'), ?_⟩
        rw [readAtomLoop, ha, hv, hr]
      · refine ⟨(v :: vs0, f :: fs0'), ?_⟩
        rw [readAtomLoop, ha, hr]

/-- C4, amended: not every reader survives malformed lines.  The trajectory
atom parser never raises — a value failing its column's format is
re-classified by `guess_string_format`, which always succeeds (`str` is a
catch-all) — and wrong-token-count rows are dropped by the chunked reader;
but the chunked and log readers do raise `ValueError` on a line whose
tokens fail an attempted numeric conversion (see
`read_lammps_log_raises_on_malformed_row`). -/
theorem read_atom_data_never_raises
    (atom_format : Option (List PyFmt)) (toks : List String) :
    ∃ r, read_atom_data atom_format toks = .ok r := by
  unfold read_atom_data
  cases atom_format with
  | none => exact readAtomLoop_total toks (toks.map guess_string_format)
  | some f => exact readAtomLoop_total toks f

lemma readAtomLoop_spec :
    ∀ (toks : List String) (fmts : List PyFmt) (vs : List PyVal)
      (fs' : List PyFmt),
      readAtomLoop toks fmts = .ok (vs, fs') →
      fs'.length = fmts.length ∧
      (∀ i, fmtRank (fmts.getD i .str) ≤ fmtRank (fs'.getD i .str)) ∧
      (∀ i, i < toks.length → i < fmts.length →
        applyFmt (fmts.getD i .str) (toks.getD i ("")) = none →
        fs'.getD i .str = guess_string_format (toks.getD i ("")) ∧
        applyFmt (fs'.getD i .str) (toks.getD i ("")) =
          some (vs.getD i (.strV ("")))) := by
  intro toks
  induction toks with
  | nil =>
    intro fmts vs fs' h
    rw [readAtomLoop] at h
    cases h
    exact ⟨rfl, fun i => le_refl _, fun i hi => by simp at hi⟩
  | cons t ts ih =>
    intro fmts vs fs' h
    cases fmts with
    | nil =>
      rw [readAtomLoop] at h
      cases h
      exact ⟨rfl, fun i => le_refl _, fun i _ hi => by simp at hi⟩
    | cons f fs0 =>
      rw [readAtomLoop] at h
      rcases ha : applyFmt f t with _ | v
      · rw [ha] at h
        obtain ⟨v, hv⟩ := applyFmt_guess_total t
        rw [hv] at h
        rcases hr : readAtomLoop ts fs0 with e | ⟨vs0, fs0'⟩
        · rw [hr] at h; cases h
        · rw [hr] at h
          cases h
          obtain ⟨ih1, ih2, ih3⟩ := ih fs0 vs0 fs0' hr
          refine ⟨by simp [ih1], ?_, ?_⟩
          · intro i
            cases i with
            | zero =>
              simpa using (fmtRank_lt_guess f t ha).le
            | succ j => simpa using ih2 j
          · intro i h1 h2 hnone
            cases i with
            | zero => exact ⟨rfl, by simpa using hv⟩
            | succ j =>
              refine ih3 j (by simpa using h1) (by simpa using h2) ?_
              simpa using hnone
      · rw [ha] at h
        rcases hr : readAtomLoop ts fs0 with e | ⟨vs0, fs0'⟩
        · rw [hr] at h; cases h
        · rw [hr] at h
          cases h
          obtain ⟨ih1, ih2, ih3⟩ := ih fs0 vs0 fs0' hr
          refine ⟨by simp [ih1], ?_, ?_⟩
          · intro i
            cases i with
            | zero => exact le_refl _
            | succ j => simpa using ih2 j
          · intro i h1 h2 hnone
            cases i with
            | zero =>
              simp only [List.getD_cons_zero] at hnone
              rw [hnone] at ha
              cases ha
            | succ j =>
              refine ih3 j (by simpa using h1) (by simpa using h2) ?_
              simpa using hnone

/-- C8: a trajectory column's inferred type only widens, never narrows:
running one atom row through `read_atom_data` with an existing format list
yields a format list of the same length in which every column's rank
(`int < float < str`) is at least its previous rank; moreover a value that
fails the previous format makes the column adopt
`guess_string_format`'s re-inference, and the value is stored under that
new format. -/
theorem atom_type_widening
    (fmts : List PyFmt) (toks : List String) (vs : List PyVal)
    (fs' : List PyFmt)
    (h : read_atom_data (some fmts) toks = .ok (vs, fs')) :
    fs'.length = fmts.length ∧
    (∀ i, fmtRank (fmts.getD i .str) ≤ fmtRank (fs'.getD i .str)) ∧
    (∀ i, i < toks.length → i < fmts.length →
      applyFmt (fmts.getD i .str) (toks.getD i ("")) = none →
      fs'.getD i .str = guess_string_format (toks.getD i ("")) ∧
      applyFmt (fs'.getD i .str) (toks.getD i ("")) =
        some (vs.getD i (.strV ("")))) := by
  exact readAtomLoop_spec toks fmts vs fs' h

instance exceptDecEq {ε α : Type} [DecidableEq ε] [DecidableEq α] :
    DecidableEq (Except ε α) := fun a b =>
  match a, b with
  | .ok x, .ok y =>
    if h : x = y then .isTrue (by rw [h])
    else .isFalse (fun hh => by cases hh; exact h rfl)
  | .error e, .error f =>
    if h : e = f then .isTrue (by rw [h])
    else .isFalse (fun hh => by cases hh; exact h rfl)
  | .ok _, .error _ => .isFalse (fun hh => by cases hh)
  | .error _, .ok _ => .isFalse (fun hh => by cases hh)

/-- Witness for `atom_type_widening`: an `int` column receiving the token
`abc` widens to `str` and stores the string value. -/
theorem atom_type_widening_witness :
    fmtRank ([PyFmt.int].getD 0 PyFmt.str) ≤ fmtRank ([PyFmt.str].getD 0 PyFmt.str) ∧
    [PyFmt.str].getD 0 PyFmt.str = guess_string_format ([("abc")].getD 0 ("")) := by
  have h := atom_type_widening [PyFmt.int] [("abc")] [PyVal.strV ("abc")]
    [PyFmt.str] (by decide)
  exact ⟨h.2.1 0, (h.2.2 0 (by decide) (by decide) (by decide)).1⟩

/-! ## Frame counter / reducer (`skip_lammpstrj.py`)

`read_lammpstrj` groups the raw lines of a trajectory into frames delimited
by lines starting with `ITEM: TIMESTEP`; `count_frames` counts occurrences
of that sentinel in the raw bytes; `main` writes frame `i` to the output
exactly when `i % skip == 0`, after bailing out when no frame was
counted. -/

/-- One iteration of the frame-grouping loop of `read_lammpstrj`
(`skip_lammpstrj.py` lines 15-20): state is `(frames yielded so far, raw)`. -/
def trjStep (acc : List (List String) × List String) (line : String) :
    List (List String) × List String :=
  if pyStartsWith line ("ITEM: TIMESTEP") then
    ((if acc.2.isEmpty then acc.1 else acc.1 ++ [acc.2]), [line])
  else (acc.1, acc.2 ++ [line])

/-- All frames yielded by `read_lammpstrj`, including the end-of-input
yield of a non-empty trailing group. -/
def read_lammpstrj (ls : List String) : List (List String) :=
  if (ls.foldl trjStep ([], [])).2.isEmpty then (ls.foldl trjStep ([], [])).1
  else (ls.foldl trjStep ([], [])).1 ++ [(ls.foldl trjStep ([], [])).2]

/-- Count occurrences of `p` in a character list by testing every suffix.
`re.finditer` counts non-overlapping matches; the fixed sentinel
`ITEM: TIMESTEP` cannot overlap itself, so the two counts agree. -/
def countSub (p : List Char) : List Char → ℕ
  | [] => 0
  | c :: cs => (if p.isPrefixOf (c :: cs) then 1 else 0) + countSub p cs

/-- `count_frames`: number of `ITEM: TIMESTEP` sentinels in the file's raw
content. -/
def count_frames (content : String) : ℕ :=
  countSub ("ITEM: TIMESTEP").data content.data

/-- Number of frames `main(infile, skip)` writes: those with index
`i % skip == 0`. -/
def frames_written (ls : List String) (skip : ℕ) : ℕ :=
  ((read_lammpstrj ls).enum.filter (fun pr => pr.1 % skip == 0)).length

/-- Output lines written by `main(infile, skip)`: `none` when
`count_frames < 1` (early exit, no output file), otherwise the
concatenation of every frame whose index satisfies `i % skip == 0`. -/
def main_reduce (ls : List String) (skip : ℕ) : Option (List String) :=
  if count_frames (String.join ls) < 1 then none
  else
    some ((((read_lammpstrj ls).enum.filter
      (fun pr => pr.1 % skip == 0)).map Prod.snd).flatten)

lemma trj_fold_flatten (ls : List String) :
    ∀ frames raw,
      (ls.foldl trjStep (frames, raw)).1.flatten ++ (ls.foldl trjStep (frames, raw)).2 =
        frames.flatten ++ raw ++ ls := by
  induction ls with
  | nil => intro frames raw; simp
  | cons line rest ih =>
    intro frames raw
    rw [List.foldl_cons]
    by_cases h : pyStartsWith line ("ITEM: TIMESTEP") = true
    · have hstep : trjStep (frames, raw) line =
          ((if raw.isEmpty then frames else frames ++ [raw]), [line]) := by
        simp only [trjStep, if_pos h]
      rw [hstep]
      by_cases hr : raw.isEmpty = true
      · rw [if_pos hr]
        have hraw : raw = [] := by simpa using hr
        subst hraw
        rw [ih frames [line]]
        simp
      · rw [if_neg hr]
        rw [ih (frames ++ [raw]) [line]]
        simp
    · have hstep : trjStep (frames, raw) line = (frames, raw ++ [line]) := by
        simp only [trjStep, if_neg h]
      rw [hstep]
      rw [ih frames (raw ++ [line])]
      simp

lemma read_lammpstrj_flatten (ls : List String) :
    (read_lammpstrj ls).flatten = ls := by
  unfold read_lammpstrj
  have h := trj_fold_flatten ls [] []
  rcases hp : ls.foldl trjStep ([], []) with ⟨frames, raw⟩
  rw [hp] at h
  dsimp only at h ⊢
  simp only [List.flatten_nil, List.nil_append] at h
  by_cases hr : raw.isEmpty = true
  · rw [if_pos hr]
    have hraw : raw = [] := by simpa using hr
    subst hraw
    simpa using h
  · rw [if_neg hr]
    simpa using h

/-- C6: reducing a trajectory with stride 1 writes every frame in order,
so as soon as at least one frame sentinel is present (otherwise `main`
exits without writing a file), the output lines are exactly the input
lines — a byte-for-byte round trip. -/
theorem reduce_stride_one_roundtrip (ls : List String)
    (h : 0 < count_frames (String.join ls)) :
    main_reduce ls 1 = some ls := by
  unfold main_reduce
  rw [if_neg (by omega)]
  have hfil : (read_lammpstrj ls).enum.filter (fun pr => pr.1 % 1 == 0) =
      (read_lammpstrj ls).enum := by
    apply List.filter_eq_self.mpr
    intro a _
    simp [Nat.mod_one]
  rw [hfil, List.enum_map_snd, read_lammpstrj_flatten]

/-- Witness for `reduce_stride_one_roundtrip` on a two-line one-frame
file. -/
theorem reduce_stride_one_roundtrip_witness :
    main_reduce [("ITEM: TIMESTEP\n"), ("0\n")] 1 =
      some [("ITEM: TIMESTEP\n"), ("0\n")] :=
  reduce_stride_one_roundtrip [("ITEM: TIMESTEP\n"), ("0\n")] (by decide)

lemma range_filter_mod_length (s : ℕ) (hs : 0 < s) :
    ∀ N : ℕ, ((List.range N).filter (fun i => i % s == 0)).length =
      (N + s - 1) / s := by
  intro N
  induction N with
  | zero =>
    have e : 0 + s - 1 = s - 1 := by omega
    rw [List.range_zero, List.filter_nil, List.length_nil, e,
      Nat.div_eq_of_lt (by omega)]
  | succ n ihN =>
    rw [List.range_succ, List.filter_append, List.length_append, ihN]
    by_cases hmod : n % s = 0
    · obtain ⟨q, hq⟩ := Nat.dvd_of_mod_eq_zero hmod
      subst hq
      have hc : (s * q % s == 0) = true := by
        simp [Nat.mul_mod_right]
      have e1 : s * q + s - 1 = s * q + (s - 1) := by omega
      have e2 : s * q + 1 + s - 1 = s * q + s := by omega
      rw [List.filter_cons, if_pos hc]
      simp only [List.filter_nil, List.length_cons, List.length_nil,
        Nat.zero_add]
      rw [e1, e2, Nat.mul_add_div hs, Nat.mul_add_div hs,
        Nat.div_eq_of_lt (by omega), Nat.div_self hs]
    · have hc : ¬ ((n % s == 0) = true) := by simp [hmod]
      rw [List.filter_cons, if_neg hc]
      simp only [List.filter_nil, List.length_nil, Nat.add_zero]
      have hd := Nat.div_add_mod n s
      have hrlt : n % s < s := Nat.mod_lt n hs
      have e1 : n + s - 1 = s * (n / s + 1) + (n % s - 1) := by
        rw [Nat.mul_succ]
        omega
      have e2 : n + 1 + s - 1 = s * (n / s + 1) + n % s := by
        rw [Nat.mul_succ]
        omega
      have d1 : (n % s - 1) / s = 0 := Nat.div_eq_of_lt (by omega)
      have d2 : n % s / s = 0 := Nat.div_eq_of_lt hrlt
      rw [e1, e2, Nat.mul_add_div hs, Nat.mul_add_div hs, d1, d2]

lemma frames_written_eq_range (ls : List String) (skip : ℕ) :
    frames_written ls skip =
      ((List.range (read_lammpstrj ls).length).filter
        (fun i => i % skip == 0)).length := by
  unfold frames_written
  rw [← List.enum_map_fst (read_lammpstrj ls),
    List.filter_map Prod.fst (read_lammpstrj ls).enum, List.length_map]
  rfl

/-- C7: for positive stride, a frame is written exactly when its index is a
multiple of the stride (so frame 0 is always written when any frame
exists), the number written is `⌈N / stride⌉`, and in particular a
101-frame file reduced with stride 10 yields 11 frames. -/
theorem reduce_stride_pattern (ls : List String) (stride : ℕ)
    (hs : 0 < stride) :
    frames_written ls stride =
      ((read_lammpstrj ls).length + stride - 1) / stride ∧
    (∀ i, i < (read_lammpstrj ls).length →
      ((∃ f, (i, f) ∈ (read_lammpstrj ls).enum.filter
          (fun pr => pr.1 % stride == 0)) ↔ i % stride = 0)) ∧
    (0 < (read_lammpstrj ls).length →
      ∃ f, (0, f) ∈ (read_lammpstrj ls).enum.filter
        (fun pr => pr.1 % stride == 0)) ∧
    ((read_lammpstrj ls).length = 101 → stride = 10 →
      frames_written ls stride = 11) := by
  have hmem : ∀ i, i < (read_lammpstrj ls).length →
      ((∃ f, (i, f) ∈ (read_lammpstrj ls).enum.filter
          (fun pr => pr.1 % stride == 0)) ↔ i % stride = 0) := by
    intro i hi
    constructor
    · rintro ⟨f, hf⟩
      have := (List.mem_filter.mp hf).2
      simpa using this
    · intro hmod
      refine ⟨(read_lammpstrj ls).get ⟨i, hi⟩, List.mem_filter.mpr ⟨?_, ?_⟩⟩
      · rw [List.mk_mem_enum_iff_getElem?]
        exact List.getElem?_eq_getElem hi
      · simpa using hmod
  refine ⟨?_, hmem, ?_, ?_⟩
  · rw [frames_written_eq_range]
    exact range_filter_mod_length stride hs (read_lammpstrj ls).length
  · intro hN
    exact (hmem 0 hN).mpr (by simp)
  · intro hN hstride
    rw [frames_written_eq_range, hN, hstride,
      range_filter_mod_length 10 (by omega) 101]

/-- Witness for `reduce_stride_pattern`: a three-frame file reduced with
stride 2 writes two frames (indices 0 and 2). -/
theorem reduce_stride_pattern_witness :
    frames_written
      [("ITEM: TIMESTEP\n"), ("a\n"), ("ITEM: TIMESTEP\n"), ("ITEM: TIMESTEP\n")]
      2 = 2 := by
  have h := (reduce_stride_pattern
    [("ITEM: TIMESTEP\n"), ("a\n"), ("ITEM: TIMESTEP\n"), ("ITEM: TIMESTEP\n")]
    2 (by omega)).1
  rw [h]
  decide

/-! ## Topology box parsing (`read_lammps_data.look_for_box_info`)

For each dimension `x`, `y`, `z`, a header line containing the token
`{dim}lo` contributes `box[{dim}lo] = min(limit)`, `box[{dim}hi] =
max(limit)` and `box[l{dim}] = hi - lo`, where `limit` is the list of the
first (at most two) whitespace tokens converted to floats.  The nested
`box` dictionary is modelled as an association list where an assignment
prepends its binding and `lookup` returns the most recent one. -/

/-- Python dict assignment `d[k] = v`: the new binding shadows older
ones for `List.lookup`. -/
def dictSet (d : List (String × ℚ)) (k : String) (v : ℚ) : List (String × ℚ) :=
  (k, v) :: d

lemma lookup_dictSet_self (d : List (String × ℚ)) (k : String) (v : ℚ) :
    (dictSet d k v).lookup k = some v := by
  simp [dictSet, List.lookup]

lemma lookup_dictSet_ne (d : List (String × ℚ)) (k k' : String) (v : ℚ)
    (h : k' ≠ k) : (dictSet d k v).lookup k' = d.lookup k' := by
  have hb : (k' == k) = false := beq_eq_false_iff_ne.mpr h
  simp [dictSet, List.lookup, hb]

/-- One iteration of the `for i in ('x', 'y', 'z')` loop of
`look_for_box_info` (`read_lammps_data.py` lines 114-126): if the line
mentions `{dim}lo`, convert the first two tokens, store the minimum as
`lo`, the maximum as `hi` and their difference as the length; `min`/`max`
of an empty list and a failed `float` raise. -/
def look_for_box_dim (line : String) (tb : Option (List (String × ℚ)))
    (dim : String) : Except String (Option (List (String × ℚ))) :=
  if containsSub line (dim ++ ("lo")) then
    match ((pySplit line).take 2).mapM pyFloat with
    | none => .error ("ValueError: could not convert string to float")
    | some [] => .error ("ValueError: min() arg is an empty sequence")
    | some (x :: xs) =>
      .ok (some (dictSet (dictSet (dictSet (tb.getD [])
        (dim ++ ("lo")) (xs.foldl min x))
        (dim ++ ("hi")) (xs.foldl max x))
        (("l") ++ dim) (xs.foldl max x - xs.foldl min x)))
  else .ok tb

/-- `look_for_box_info(line, topology)` restricted to the `box` entry it
manipulates: the three dimension passes in order. -/
def look_for_box_info (line : String) (tb0 : Option (List (String × ℚ))) :
    Except String (Option (List (String × ℚ))) :=
  match look_for_box_dim line tb0 ("x") with
  | .error e => .error e
  | .ok tb1 =>
    match look_for_box_dim line tb1 ("y") with
    | .error e => .error e
    | .ok tb2 => look_for_box_dim line tb2 ("z")

lemma foldl_min_le_self (xs : List ℚ) : ∀ x : ℚ, xs.foldl min x ≤ x := by
  induction xs with
  | nil => intro x; exact le_refl x
  | cons a t ih =>
    intro x
    exact le_trans (ih (min x a)) (min_le_left x a)

lemma self_le_foldl_max (xs : List ℚ) : ∀ x : ℚ, x ≤ xs.foldl max x := by
  induction xs with
  | nil => intro x; exact le_refl x
  | cons a t ih =>
    intro x
    exact le_trans (le_max_left x a) (ih (max x a))

lemma look_for_box_dim_triggers (line : String)
    (tb : Option (List (String × ℚ))) (dim : String)
    (hc : containsSub line (dim ++ ("lo")) = true)
    (tb' : Option (List (String × ℚ)))
    (h : look_for_box_dim line tb dim = .ok tb') :
    ∃ b lo hi, tb' = some b ∧
      b.lookup (dim ++ ("lo")) = some lo ∧
      b.lookup (dim ++ ("hi")) = some hi ∧
      b.lookup (("l") ++ dim) = some (hi - lo) ∧
      lo ≤ hi := by
  have k1 : dim ++ ("hi") ≠ ("l") ++ dim := by
    intro he
    have hlen := congrArg (fun s => s.data.length) he
    simp [String.data_append] at hlen
  have k2 : dim ++ ("lo") ≠ ("l") ++ dim := by
    intro he
    have hlen := congrArg (fun s => s.data.length) he
    simp [String.data_append] at hlen
  have k3 : dim ++ ("lo") ≠ dim ++ ("hi") := by
    intro he
    have hd := congrArg String.data he
    simp [String.data_append] at hd
  unfold look_for_box_dim at h
  rw [if_pos hc] at h
  rcases hm : ((pySplit line).take 2).mapM pyFloat with _ | l
  · rw [hm] at h; cases h
  · rw [hm] at h
    cases l with
    | nil => cases h
    | cons x xs =>
      cases h
      refine ⟨_, xs.foldl min x, xs.foldl max x, rfl, ?_, ?_, ?_, ?_⟩
      · rw [lookup_dictSet_ne _ _ _ _ k2, lookup_dictSet_ne _ _ _ _ k3,
          lookup_dictSet_self]
      · rw [lookup_dictSet_ne _ _ _ _ k1, lookup_dictSet_self]
      · rw [lookup_dictSet_self]
      · exact le_trans (foldl_min_le_self xs x) (self_le_foldl_max xs x)

lemma look_for_box_dim_preserves (line : String) (b : List (String × ℚ))
    (dim : String) (tb' : Option (List (String × ℚ)))
    (h : look_for_box_dim line (some b) dim = .ok tb') :
    ∃ b', tb' = some b' ∧ ∀ k : String, k ≠ dim ++ ("lo") →
      k ≠ dim ++ ("hi") → k ≠ ("l") ++ dim →
      b'.lookup k = b.lookup k := by
  unfold look_for_box_dim at h
  by_cases hc : containsSub line (dim ++ ("lo")) = true
  · rw [if_pos hc] at h
    rcases hm : ((pySplit line).take 2).mapM pyFloat with _ | l
    · rw [hm] at h; cases h
    · rw [hm] at h
      cases l with
      | nil => cases h
      | cons x xs =>
        cases h
        refine ⟨_, rfl, fun k hk1 hk2 hk3 => ?_⟩
        rw [lookup_dictSet_ne _ _ _ _ hk3, lookup_dictSet_ne _ _ _ _ hk2,
          lookup_dictSet_ne _ _ _ _ hk1]
        rfl
  · rw [if_neg hc] at h
    cases h
    exact ⟨b, rfl, fun k _ _ _ => rfl⟩

/-- C10: whenever a header line contains a dimension's `lo` token and
`look_for_box_info` accepts it, the stored box satisfies `lo ≤ hi` and the
length equals `hi - lo ≥ 0` for that dimension — even when the two numbers
appear in descending order — because the minimum of the parsed pair is
stored as `lo` and the maximum as `hi`. -/
theorem box_lo_le_hi (line : String) (tb : Option (List (String × ℚ)))
    (dim : String) (hdim : dim ∈ [("x"), ("y"), ("z")])
    (hlo : containsSub line (dim ++ ("lo")) = true)
    (tb' : Option (List (String × ℚ)))
    (hok : look_for_box_info line tb = .ok tb') :
    ∃ b lo hi len, tb' = some b ∧
      b.lookup (dim ++ ("lo")) = some lo ∧
      b.lookup (dim ++ ("hi")) = some hi ∧
      b.lookup (("l") ++ dim) = some len ∧
      lo ≤ hi ∧ len = hi - lo ∧ 0 ≤ len := by
  unfold look_for_box_info at hok
  rcases h1 : look_for_box_dim line tb ("x") with e | tb1
  · rw [h1] at hok; cases hok
  · rw [h1] at hok
    dsimp only at hok
    rcases h2 : look_for_box_dim line tb1 ("y") with e | tb2
    · rw [h2] at hok; cases hok
    · rw [h2] at hok
      dsimp only at hok
      simp only [List.mem_cons, List.mem_singleton, List.not_mem_nil,
        or_false] at hdim
      rcases hdim with rfl | rfl | rfl
      · -- The x pass stores the keys; the y and z passes preserve them.
        obtain ⟨b1, lo, hi, htb1, hl1, hh1, hlen1, hle⟩ :=
          look_for_box_dim_triggers line tb ("x") hlo tb1 h1
        subst htb1
        obtain ⟨b2, htb2, hp2⟩ :=
          look_for_box_dim_preserves line b1 ("y") tb2 h2
        subst htb2
        obtain ⟨b3, htb3, hp3⟩ :=
          look_for_box_dim_preserves line b2 ("z") tb' hok
        refine ⟨b3, lo, hi, hi - lo, htb3, ?_, ?_, ?_, hle, rfl, ?_⟩
        · rw [hp3 _ (by decide) (by decide) (by decide),
            hp2 _ (by decide) (by decide) (by decide), hl1]
        · rw [hp3 _ (by decide) (by decide) (by decide),
            hp2 _ (by decide) (by decide) (by decide), hh1]
        · rw [hp3 _ (by decide) (by decide) (by decide),
            hp2 _ (by decide) (by decide) (by decide), hlen1]
        · exact sub_nonneg.mpr hle
      · -- The y pass stores the keys; the z pass preserves them.
        obtain ⟨b2, lo, hi, htb2, hl2, hh2, hlen2, hle⟩ :=
          look_for_box_dim_triggers line tb1 ("y") hlo tb2 h2
        subst htb2
        obtain ⟨b3, htb3, hp3⟩ :=
          look_for_box_dim_preserves line b2 ("z") tb' hok
        refine ⟨b3, lo, hi, hi - lo, htb3, ?_, ?_, ?_, hle, rfl, ?_⟩
        · rw [hp3 _ (by decide) (by decide) (by decide), hl2]
        · rw [hp3 _ (by decide) (by decide) (by decide), hh2]
        · rw [hp3 _ (by decide) (by decide) (by decide), hlen2]
        · exact sub_nonneg.mpr hle
      · -- The z pass itself stores the keys.
        obtain ⟨b3, lo, hi, htb3, hl3, hh3, hlen3, hle⟩ :=
          look_for_box_dim_triggers line tb2 ("z") hlo tb' hok
        exact ⟨b3, lo, hi, hi - lo, htb3, hl3, hh3, hlen3, hle, rfl,
          sub_nonneg.mpr hle⟩

/-- Witness for `box_lo_le_hi`: the descending-order line `10 0 xlo xhi`
stores `xlo = min(10, 0)`, `xhi = max(10, 0)` and a non-negative length. -/
theorem box_lo_le_hi_witness :
    ∃ b lo hi len,
      (some (dictSet (dictSet (dictSet ([] : List (String × ℚ))
          (("x") ++ ("lo")) (min (10 : ℚ) 0))
          (("x") ++ ("hi")) (max (10 : ℚ) 0))
          (("l") ++ ("x")) (max (10 : ℚ) 0 - min (10 : ℚ) 0)) :
        Option (List (String × ℚ))) = some b ∧
      b.lookup (("x") ++ ("lo")) = some lo ∧
      b.lookup (("x") ++ ("hi")) = some hi ∧
      b.lookup (("l") ++ ("x")) = some len ∧
      lo ≤ hi ∧ len = hi - lo ∧ 0 ≤ len := by
  have hc : containsSub ("10 0 xlo xhi\n") (("x") ++ ("lo")) = true := by
    decide
  have hcy : ¬ containsSub ("10 0 xlo xhi\n") (("y") ++ ("lo")) = true := by
    decide
  have hcz : ¬ containsSub ("10 0 xlo xhi\n") (("z") ++ ("lo")) = true := by
    decide
  have hm : ((pySplit ("10 0 xlo xhi\n")).take 2).mapM pyFloat =
      some [(10 : ℚ), 0] := by decide
  have hx : look_for_box_dim ("10 0 xlo xhi\n") none ("x") =
      .ok (some (dictSet (dictSet (dictSet ([] : List (String × ℚ))
        (("x") ++ ("lo")) (min (10 : ℚ) 0))
        (("x") ++ ("hi")) (max (10 : ℚ) 0))
        (("l") ++ ("x")) (max (10 : ℚ) 0 - min (10 : ℚ) 0))) := by
    unfold look_for_box_dim
    rw [if_pos hc, hm]
    rfl
  have hyz : ∀ (tbv : Option (List (String × ℚ))) (dim : String),
      ¬ containsSub ("10 0 xlo xhi\n") (dim ++ ("lo")) = true →
      look_for_box_dim ("10 0 xlo xhi\n") tbv dim = .ok tbv := by
    intro tbv dim hdim
    unfold look_for_box_dim
    rw [if_neg hdim]
  have hok : look_for_box_info ("10 0 xlo xhi\n") none =
      .ok (some (dictSet (dictSet (dictSet ([] : List (String × ℚ))
        (("x") ++ ("lo")) (min (10 : ℚ) 0))
        (("x") ++ ("hi")) (max (10 : ℚ) 0))
        (("l") ++ ("x")) (max (10 : ℚ) 0 - min (10 : ℚ) 0))) := by
    unfold look_for_box_info
    rw [hx]
    dsimp only
    rw [hyz _ ("y") hcy]
    dsimp only
    rw [hyz _ ("z") hcz]
  exact box_lo_le_hi ("10 0 xlo xhi\n") none ("x") (by decide) hc _ hok

end LammpsTools
